import Mathlib

/-
Verification development for the mattermost-plugin-whentochat server plugin.

The Go source (server/plugin.go and its revisions) is shallowly embedded as
executable Lean definitions:

  * Instants are modelled as `Int` minutes since the Unix epoch; Go's
    zero-valued `time.Time` (January 1, year 1, UTC) is the concrete
    constant `zeroTime` in that scale.
  * A `*time.Location` is modelled as a fixed-offset zone `Location`
    (name, abbreviation, offset east of UTC in minutes).  The system
    timezone database consulted by `time.LoadLocation` is an explicit
    parameter `db : List Location` holding every name the system can
    resolve; `LoadLocation` returns UTC for the names "" and "UTC"
    without consulting the database, which the embedding reproduces.
  * `time.Now()` is modelled by an instant `now : Int` together with the
    server's own zone offset `serverOff`; `now.Year()/Month()/Day()` is
    the server-local calendar date, modelled as the day index
    `serverDay now serverOff`.
  * Code that can panic (indexing an empty slice, `Time.In` on a nil
    location, indexing `strings.Fields` of a blank command) returns an
    `Option` / a dedicated `panicked` result instead.
-/

namespace WhenToChat

/-- A fixed-offset model of Go's `*time.Location`: IANA name, abbreviated
zone name (what `Format("MST")` prints), and the UTC offset in minutes. -/
structure Location where
  name : String
  abbr : String
  offset : Int
deriving DecidableEq

/-- Go's `time.UTC` location. -/
def utcLoc : Location := { name := "UTC", abbr := "UTC", offset := 0 }

/-- Go's `strconv.ParseBool`: accepts exactly 1, t, T, TRUE, true, True,
0, f, F, FALSE, false, False; anything else is an error (`none`). -/
def parseBool (s : String) : Option Bool :=
  if s = "1" ∨ s = "t" ∨ s = "T" ∨ s = "TRUE" ∨ s = "true" ∨ s = "True" then some true
  else if s = "0" ∨ s = "f" ∨ s = "F" ∨ s = "FALSE" ∨ s = "false" ∨ s = "False" then some false
  else none

/-- The fields of `model.User` that the plugin reads.  The three timezone
strings are the entries of the user's `Timezone` map (absent entries read
as the empty string in Go). -/
structure User where
  id : String
  username : String
  firstName : String
  lastName : String
  nickname : String
  isBot : Bool
  useAutomaticTimezone : String
  automaticTimezone : String
  manualTimezone : String
deriving DecidableEq

/-- The timezone name chosen by `location` (plugin.go lines 127-139):
`useAutomaticTimezone` is run through `strconv.ParseBool`; a parse error
leaves `useAutomatic` at its zero value `false`. -/
def chosenTz (u : User) : String :=
  let useAutomatic :=
    match parseBool u.useAutomaticTimezone with
    | some b => b
    | none => false
  if useAutomatic then u.automaticTimezone else u.manualTimezone

/-- Go's `time.LoadLocation`: the names "" and "UTC" resolve to UTC
without a database lookup; every other name is looked up in the system
timezone database `db` (which models all names the host can resolve). -/
def loadLocation (db : List Location) (tz : String) : Option Location :=
  if tz = "" ∨ tz = "UTC" then some utcLoc
  else db.find? (fun l => l.name == tz)

/-- `location` from plugin.go lines 127-147: resolve the chosen timezone
name, `none` modelling the `nil` return on a `LoadLocation` error. -/
def location (db : List Location) (u : User) : Option Location :=
  loadLocation db (chosenTz u)

/-- Go's zero-valued `time.Time` (0001-01-01 00:00:00 UTC) in minutes
since the Unix epoch: -62135596800 seconds / 60. -/
def zeroTime : Int := -1035593280

/-- The instant of `time.Date(Y, M, D, 7, 0, 0, 0, loc)` where day is the
day index of the server's current local date: 07:00 wall clock in `loc`. -/
def userEarliestStart (day : Int) (loc : Location) : Int :=
  day * 1440 + 7 * 60 - loc.offset

/-- The instant of `time.Date(Y, M, D, 22, 0, 0, 0, loc)`: 22:00 wall
clock in `loc` on the server-local day `day`. -/
def userLatestEnd (day : Int) (loc : Location) : Int :=
  day * 1440 + 22 * 60 - loc.offset

/-- The day index of the server's current local calendar date, i.e. what
`now.Year()/Month()/Day()` denote for `now := time.Now()`. -/
def serverDay (now serverOff : Int) : Int :=
  (now + serverOff).fdiv 1440

/-- One resolved member's effect on the running bounds, from plugin.go
lines 160-171: at range index 0 the bounds are first overwritten with the
member's own bounds, then `start` is raised to `uStart` when
`uStart.After(start)` and `stop` lowered to `uEnd` when
`uEnd.Before(stop)`. -/
def stepBounds (i : Nat) (start stop uStart uEnd : Int) : Int × Int :=
  let start1 := if i = 0 then uStart else start
  let stop1 := if i = 0 then uEnd else stop
  let start2 := if start1 < uStart then uStart else start1
  let stop2 := if uEnd < stop1 then uEnd else stop1
  (start2, stop2)

/-- The loop of `window` (plugin.go lines 149-179) with its state made
explicit: `i` is the range index, `start`/`stop` the named results
(`start`, `end` in Go, zero-valued `time.Time` before any assignment).
The early `return` on a degenerate running intersection leaves `ok` at
its zero value `false`; falling off the loop sets `ok = true`. -/
def windowLoop (db : List Location) (day : Int) :
    List User → Nat → Int → Int → Int × Int × Bool
  | [], _, start, stop => (start, stop, true)
  | u :: rest, i, start, stop =>
    match location db u with
    | none => windowLoop db day rest (i + 1) start stop
    | some loc =>
      let p := stepBounds i start stop (userEarliestStart day loc) (userLatestEnd day loc)
      if p.2 < p.1 ∨ p.1 = p.2 then (p.1, p.2, false)
      else windowLoop db day rest (i + 1) p.1 p.2

/-- `window` from plugin.go lines 149-179, with the ambient time and the
server zone offset (both implicit in `time.Now()`) passed explicitly. -/
def window (db : List Location) (now serverOff : Int) (users : List User) :
    Int × Int × Bool :=
  windowLoop db (serverDay now serverOff) users 0 zeroTime zeroTime

/-- Whether, at some iteration of the `window` loop that processes a
member with a resolved timezone, the running bounds right after that
member's max/min update satisfy start ≥ end (the condition of the early
return at plugin.go lines 173-175).  Mirrors `windowLoop` step for step. -/
def reachesDegenerate (db : List Location) (day : Int) :
    List User → Nat → Int → Int → Bool
  | [], _, _, _ => false
  | u :: rest, i, start, stop =>
    match location db u with
    | none => reachesDegenerate db day rest (i + 1) start stop
    | some loc =>
      let p := stepBounds i start stop (userEarliestStart day loc) (userLatestEnd day loc)
      if p.2 < p.1 ∨ p.1 = p.2 then true
      else reachesDegenerate db day rest (i + 1) p.1 p.2

/-- The search loop of `arrangeUserFirst` (plugin.go lines 181-193): the
index of the first member whose `Id` equals `userID`, or `none`. -/
def findIdxUser (userID : String) : List User → Option Nat
  | [] => none
  | u :: rest =>
    if u.id = userID then some 0
    else (findIdxUser userID rest).map (· + 1)

/-- The value of Go's `indexOfUser` variable after the loop: it stays at
its zero value 0 when no member matches. -/
def indexOfUser (userID : String) (users : List User) : Nat :=
  match findIdxUser userID users with
  | some i => i
  | none => 0

/-- `arrangeUserFirst` from plugin.go lines 181-193:
`[users[idx]] ++ users[:idx] ++ users[idx+1:]`.  `none` models the
out-of-range panic of `users[indexOfUser]` (possible only for `idx`
past the end, i.e. for the empty list). -/
def arrangeUserFirst (userID : String) (users : List User) : Option (List User) :=
  let idx := indexOfUser userID users
  match users.get? idx with
  | none => none
  | some u => some (u :: (users.take idx ++ users.drop (idx + 1)))

/-- Go's `Time.Format("3:04pm")` applied to the wall-clock time
`walltime` (an instant already shifted into the display zone): 12-hour
clock without leading zero, two-digit minutes, lowercase am/pm. -/
def formatClock (walltime : Int) : String :=
  let md := (walltime.emod 1440).toNat
  let h24 := md / 60
  let mins := md % 60
  let h12 := h24 % 12
  let h := if h12 = 0 then 12 else h12
  let suffix := if h24 < 12 then "am" else "pm"
  let minStr := if mins < 10 then "0" ++ toString mins else toString mins
  toString h ++ ":" ++ minStr ++ suffix

/-- `model.User.GetFullName` from the mattermost-server v5 SDK. -/
def getFullName (u : User) : String :=
  if u.firstName ≠ "" ∧ u.lastName ≠ "" then u.firstName ++ " " ++ u.lastName
  else if u.firstName ≠ "" then u.firstName
  else if u.lastName ≠ "" then u.lastName
  else ""

/-- `model.User.GetDisplayName("full_name")` from the mattermost-server
v5 SDK: the full name when non-empty, else the username. -/
def getDisplayName (u : User) : String :=
  if getFullName u ≠ "" then getFullName u else u.username

/-- One iteration of the `verboseDisplay` loop: the text appended to the
message for one member. -/
def verboseLine (db : List Location) (start stop : Int) (u : User) : String :=
  match location db u with
  | none => "\n- " ++ u.firstName ++ " " ++ u.lastName ++ ": ?"
  | some loc =>
    "\n- " ++ getDisplayName u ++ ": " ++ formatClock (start + loc.offset) ++
      " - " ++ formatClock (stop + loc.offset) ++ " (" ++ loc.abbr ++ ")"

/-- `verboseDisplay` from the source: one appended line per member. -/
def verboseDisplay (db : List Location) (start stop : Int) (users : List User) : String :=
  users.foldl (fun msg u => msg ++ verboseLine db start stop u) ""

/-- Go's `(*time.Location).String()` as called on the result of
`location`: the String method tolerates a nil receiver and reports the
zone name "UTC" for it, so an unresolved member reads as "UTC". -/
def locationString : Option Location → String
  | none => "UTC"
  | some loc => loc.name

/-- The effect of `umap[locStr] = append(umap[locStr], user)` on a Go
map modelled as an association list in first-insertion order: append to
the existing group, or add a new singleton group at the end. -/
def insertGrouped (m : List (String × List User)) (key : String) (u : User) :
    List (String × List User) :=
  match m with
  | [] => [(key, [u])]
  | (k, g) :: rest =>
    if k = key then (k, g ++ [u]) :: rest
    else (k, g) :: insertGrouped rest key u

/-- `usersByTimezone` from the source (lines 251-264 of the later
revision): members grouped by `location(user).String()`.  The
`locStr == ""` guard is kept although `String()` never yields "". -/
def usersByTimezone (db : List Location) (users : List User) :
    List (String × List User) :=
  users.foldl
    (fun m u =>
      let locStr := locationString (location db u)
      if locStr = "" then m else insertGrouped m locStr u)
    []

/-- The "and N other(s)" suffix of a compact line, from `compactDisplay`. -/
def othersMsg (userCount : Nat) : String :=
  if userCount > 1 then
    if userCount = 2 then " and 1 other"
    else " and " ++ toString (userCount - 1) ++ " others"
  else ""

/-- The text appended for one group by the `compactDisplay` loop.  Go
reads `users[0]` and calls `start.In(loc)`; when the group head's
timezone does not resolve, `Time.In` receives nil and panics (`none`). -/
def compactLine (db : List Location) (start stop : Int) (group : List User) :
    Option String :=
  match group with
  | [] => none
  | u0 :: _ =>
    match location db u0 with
    | none => none
    | some loc =>
      some ("\n- " ++ getDisplayName u0 ++ othersMsg group.length ++ ": " ++
        formatClock (start + loc.offset) ++ " - " ++ formatClock (stop + loc.offset) ++
        " (" ++ loc.abbr ++ ")")

/-- `compactDisplay` from the source (lines 220-249 of the later
revision): one line per group of `usersByTimezone`; `none` models the
panic on a group whose first member has no resolved timezone. -/
def compactDisplay (db : List Location) (start stop : Int) (users : List User) :
    Option String :=
  (usersByTimezone db users).foldl
    (fun msg g =>
      match msg, compactLine db start stop g.2 with
      | some m, some line => some (m ++ line)
      | _, _ => none)
    (some "")

/-- `maxDisplayUserBullets` from the source. -/
def maxDisplayUserBullets : Nat := 50

/-- The pagination page size `batchSize` of `allUsers`. -/
def batchSize : Nat := 100

/-- `allUsers` from the later revision (lines 107-131): the pages the
host would serve are the explicit list `batches` (an exhausted paginator
serves an empty page, so an empty `batches` means the next fetch is
empty and short).  Bots are dropped, then the cap is checked, then a
short page stops paging.  The Bool result is `true` exactly when the
function returns `errMaxChannelMembers`. -/
def allUsers (limit : Nat) : List (List User) → List User → List User × Bool
  | [], acc => if limit < acc.length then (acc, true) else (acc, false)
  | b :: rest, acc =>
    let acc2 := acc ++ b.filter (fun u => !u.isBot)
    if limit < acc2.length then (acc2, true)
    else if b.length < batchSize then (acc2, false)
    else allUsers limit rest acc2

/-- The splitter behind Go's `strings.Fields` (space separators only):
maximal runs of non-space characters, empty runs dropped. -/
def fieldsGo : List Char → List Char → List String
  | [], acc => if acc = [] then [] else [String.mk acc]
  | c :: cs, acc =>
    if c = ' ' then
      if acc = [] then fieldsGo cs []
      else String.mk acc :: fieldsGo cs []
    else fieldsGo cs (acc ++ [c])

/-- Go's `strings.Fields` restricted to the space separator. -/
def splitFields (s : String) : List String :=
  fieldsGo s.data []

/-- The observable outcome of one `ExecuteCommand` invocation: which
ephemeral message was posted, or that nothing was posted (foreign
trigger), or that the code panicked. -/
inductive CommandResult where
  | noAction : CommandResult
  | posted : String → CommandResult
  | panicked : CommandResult
deriving DecidableEq

/-- `ExecuteCommand` from the later revision (lines 60-105), reduced to
its observable message: fields-split the command (indexing an empty
split panics), check the trigger, page the members under the cap, report
over-cap, intersect windows, report an empty window, move the invoker
first, and render verbose (≤ 50 members) or compact (> 50). -/
def executeCommand (db : List Location) (now serverOff : Int)
    (invokerID command : String) (batches : List (List User)) (limit : Nat) :
    CommandResult :=
  match splitFields command with
  | [] => CommandResult.panicked
  | cmd :: _ =>
    if cmd = "/whentochat" then
      match allUsers limit batches [] with
      | (_, true) => CommandResult.posted "Too many channel members."
      | (users, false) =>
        match window db now serverOff users with
        | (_, _, false) => CommandResult.posted "There is no window that suits everyone."
        | (s, e, true) =>
          match arrangeUserFirst invokerID users with
          | none => CommandResult.panicked
          | some arranged =>
            if arranged.length ≤ maxDisplayUserBullets then
              CommandResult.posted
                ("It looks like the best times to chat are:\n" ++ verboseDisplay db s e arranged)
            else
              match compactDisplay db s e arranged with
              | none => CommandResult.panicked
              | some msg =>
                CommandResult.posted ("It looks like the best times to chat are:\n" ++ msg)
    else CommandResult.noAction

/-! Concrete fixtures used by witnesses and counterexamples. -/

/-- Asia/Tokyo as a fixed-offset zone: UTC+9. -/
def tokyoLoc : Location := { name := "Asia/Tokyo", abbr := "JST", offset := 540 }

/-- A fixed-offset zone 15 hours ahead of UTC. -/
def farLoc : Location := { name := "Etc/Plus15", abbr := "P15", offset := 900 }

/-- A sample timezone database. -/
def db0 : List Location := [tokyoLoc, farLoc]

/-- A member whose automatic timezone resolves to Asia/Tokyo. -/
def tokyoUser : User :=
  { id := "t1", username := "tok", firstName := "Toki", lastName := "Yo",
    nickname := "", isBot := false, useAutomaticTimezone := "true",
    automaticTimezone := "Asia/Tokyo", manualTimezone := "" }

/-- A member whose manual timezone name is not in the database, so
`location` returns `none` for them. -/
def fakeUser : User :=
  { id := "f1", username := "fake", firstName := "Fa", lastName := "Ke",
    nickname := "", isBot := false, useAutomaticTimezone := "",
    automaticTimezone := "", manualTimezone := "Nowhere/Fake" }

/-- A member with entirely empty timezone preferences. -/
def emptyTzUser : User :=
  { id := "e1", username := "emp", firstName := "Em", lastName := "Pty",
    nickname := "", isBot := false, useAutomaticTimezone := "",
    automaticTimezone := "", manualTimezone := "" }

/-- A member in the far zone. -/
def farUser : User :=
  { id := "p1", username := "far", firstName := "Fa", lastName := "R",
    nickname := "", isBot := false, useAutomaticTimezone := "false",
    automaticTimezone := "", manualTimezone := "Etc/Plus15" }

/-! Helper lemmas about the `window` loop. -/

/-- The updated running start is at least the member's 07:00 bound. -/
theorem stepBounds_fst_ge_user (i : Nat) (s e uS uE : Int) :
    uS ≤ (stepBounds i s e uS uE).1 := by
  simp only [stepBounds]
  split_ifs <;> omega

/-- The updated running end is at most the member's 22:00 bound. -/
theorem stepBounds_snd_le_user (i : Nat) (s e uS uE : Int) :
    (stepBounds i s e uS uE).2 ≤ uE := by
  simp only [stepBounds]
  split_ifs <;> omega

/-- Past the first iteration, the update can only raise the start. -/
theorem stepBounds_fst_ge_start (i : Nat) (s e uS uE : Int) :
    s ≤ (stepBounds (i + 1) s e uS uE).1 := by
  simp only [stepBounds, Nat.succ_ne_zero, if_false]
  split_ifs <;> omega

/-- Past the first iteration, the update can only lower the end. -/
theorem stepBounds_snd_le_stop (i : Nat) (s e uS uE : Int) :
    (stepBounds (i + 1) s e uS uE).2 ≤ e := by
  simp only [stepBounds, Nat.succ_ne_zero, if_false]
  split_ifs <;> omega

/-- Past the first iteration (`i + 1 ≠ 0`), the running start only grows
and the running end only shrinks. -/
theorem windowLoop_mono (db : List Location) (day : Int) :
    ∀ (users : List User) (i : Nat) (s e : Int),
      s ≤ (windowLoop db day users (i + 1) s e).1 ∧
        (windowLoop db day users (i + 1) s e).2.1 ≤ e := by
  intro users
  induction users with
  | nil => intro i s e; simp [windowLoop]
  | cons u rest ih =>
    intro i s e
    cases hloc : location db u with
    | none => simpa [windowLoop, hloc] using ih (i + 1) s e
    | some loc =>
      rcases hp : stepBounds (i + 1) s e (userEarliestStart day loc) (userLatestEnd day loc)
        with ⟨ps, pe⟩
      have hs : s ≤ ps := by
        have h := stepBounds_fst_ge_start i s e (userEarliestStart day loc) (userLatestEnd day loc)
        rw [hp] at h; exact h
      have he : pe ≤ e := by
        have h := stepBounds_snd_le_stop i s e (userEarliestStart day loc) (userLatestEnd day loc)
        rw [hp] at h; exact h
      by_cases hdeg : pe < ps ∨ ps = pe
      · simp only [windowLoop, hloc, hp, if_pos hdeg]
        exact ⟨hs, he⟩
      · simp only [windowLoop, hloc, hp, if_neg hdeg]
        have hrec := ih (i + 1) ps pe
        exact ⟨le_trans hs hrec.1, le_trans hrec.2 he⟩

/-- If no member's timezone resolves, the loop returns its seeds with
`ok = true`. -/
theorem windowLoop_allUnknown (db : List Location) (day : Int) :
    ∀ (users : List User) (i : Nat) (s e : Int),
      (∀ u ∈ users, location db u = none) →
      windowLoop db day users i s e = (s, e, true) := by
  intro users
  induction users with
  | nil => intro i s e _; simp [windowLoop]
  | cons u rest ih =>
    intro i s e h
    have hu : location db u = none := h u (List.mem_cons_self u rest)
    simpa [windowLoop, hu] using
      ih (i + 1) s e (fun v hv => h v (List.mem_cons_of_mem u hv))

/-- When the loop reports `ok = true`, its final bounds are at least as
tight as every resolved member's own 07:00/22:00 bounds. -/
theorem windowLoop_bounds (db : List Location) (day : Int) :
    ∀ (users : List User) (i : Nat) (s e : Int),
      (windowLoop db day users i s e).2.2 = true →
      ∀ u ∈ users, ∀ loc, location db u = some loc →
        userEarliestStart day loc ≤ (windowLoop db day users i s e).1 ∧
          (windowLoop db day users i s e).2.1 ≤ userLatestEnd day loc := by
  intro users
  induction users with
  | nil => intro i s e _ u hu; exact absurd hu (List.not_mem_nil u)
  | cons v rest ih =>
    intro i s e hok u hu loc hloc
    cases hv : location db v with
    | none =>
      simp only [windowLoop, hv] at hok ⊢
      rcases List.mem_cons.mp hu with rfl | hmem
      · rw [hv] at hloc; exact absurd hloc (by simp)
      · exact ih (i + 1) s e hok u hmem loc hloc
    | some vloc =>
      rcases hp : stepBounds i s e (userEarliestStart day vloc) (userLatestEnd day vloc)
        with ⟨ps, pe⟩
      have hps : userEarliestStart day vloc ≤ ps := by
        have h := stepBounds_fst_ge_user i s e (userEarliestStart day vloc) (userLatestEnd day vloc)
        rw [hp] at h; exact h
      have hpe : pe ≤ userLatestEnd day vloc := by
        have h := stepBounds_snd_le_user i s e (userEarliestStart day vloc) (userLatestEnd day vloc)
        rw [hp] at h; exact h
      by_cases hdeg : pe < ps ∨ ps = pe
      · simp only [windowLoop, hv, hp, if_pos hdeg] at hok
        exact absurd hok (by simp)
      · simp only [windowLoop, hv, hp, if_neg hdeg] at hok ⊢
        rcases List.mem_cons.mp hu with rfl | hmem
        · rw [hv] at hloc
          have hl : vloc = loc := by injection hloc
          subst hl
          have hrec := windowLoop_mono db day rest i ps pe
          exact ⟨le_trans hps hrec.1, le_trans hrec.2 hpe⟩
        · exact ih (i + 1) ps pe hok u hmem loc hloc

/-- When the loop reports `ok = true` and at least one member's timezone
resolved, the final bounds satisfy the strict inequality start < end. -/
theorem windowLoop_strict (db : List Location) (day : Int) :
    ∀ (users : List User) (i : Nat) (s e : Int),
      (windowLoop db day users i s e).2.2 = true →
      (∃ u ∈ users, (location db u).isSome) →
      (windowLoop db day users i s e).1 < (windowLoop db day users i s e).2.1 := by
  intro users
  induction users with
  | nil => intro i s e _ hex; simp at hex
  | cons v rest ih =>
    intro i s e hok hex
    cases hv : location db v with
    | none =>
      simp only [windowLoop, hv] at hok ⊢
      rcases hex with ⟨u, hu, husome⟩
      rcases List.mem_cons.mp hu with rfl | hmem
      · rw [hv] at husome; simp at husome
      · exact ih (i + 1) s e hok ⟨u, hmem, husome⟩
    | some vloc =>
      rcases hp : stepBounds i s e (userEarliestStart day vloc) (userLatestEnd day vloc)
        with ⟨ps, pe⟩
      by_cases hdeg : pe < ps ∨ ps = pe
      · simp only [windowLoop, hv, hp, if_pos hdeg] at hok
        exact absurd hok (by simp)
      · simp only [windowLoop, hv, hp, if_neg hdeg] at hok ⊢
        by_cases hrest : ∃ u ∈ rest, (location db u).isSome
        · exact ih (i + 1) ps pe hok hrest
        · have hnone : ∀ u ∈ rest, location db u = none := by
            intro u hu
            cases hloc2 : location db u with
            | none => rfl
            | some l => exact absurd ⟨u, hu, by simp [hloc2]⟩ hrest
          rw [windowLoop_allUnknown db day rest (i + 1) ps pe hnone]
          simp only
          omega

/-- If some iteration's post-update running bounds are degenerate
(start ≥ end), the loop's final `ok` is `false`. -/
theorem windowLoop_degenerate (db : List Location) (day : Int) :
    ∀ (users : List User) (i : Nat) (s e : Int),
      reachesDegenerate db day users i s e = true →
      (windowLoop db day users i s e).2.2 = false := by
  intro users
  induction users with
  | nil => intro i s e h; simp [reachesDegenerate] at h
  | cons v rest ih =>
    intro i s e h
    cases hv : location db v with
    | none =>
      simp only [reachesDegenerate, hv] at h
      simp only [windowLoop, hv]
      exact ih (i + 1) s e h
    | some vloc =>
      rcases hp : stepBounds i s e (userEarliestStart day vloc) (userLatestEnd day vloc)
        with ⟨ps, pe⟩
      by_cases hdeg : pe < ps ∨ ps = pe
      · simp only [windowLoop, hv, hp, if_pos hdeg]
      · simp only [reachesDegenerate, hv, hp, if_neg hdeg] at h
        simp only [windowLoop, hv, hp, if_neg hdeg]
        exact ih (i + 1) ps pe h

/-- Once the loop is past index 0 with its bounds still at the
zero-value sentinels, the first member whose timezone resolves makes the
running intersection degenerate (the sentinel end never rises), so the
loop reports no window.  The hypothesis `zeroTime < userEarliestStart`
only excludes server dates at the very start of year 1. -/
theorem windowLoop_sentinelSeeds (db : List Location) (day : Int) :
    ∀ (users : List User) (i : Nat),
      (∀ u ∈ users, ∀ loc, location db u = some loc →
        zeroTime < userEarliestStart day loc) →
      (∃ u ∈ users, (location db u).isSome) →
      (windowLoop db day users (i + 1) zeroTime zeroTime).2.2 = false := by
  intro users
  induction users with
  | nil => intro i _ hex; simp at hex
  | cons v rest ih =>
    intro i hb hex
    cases hv : location db v with
    | none =>
      simp only [windowLoop, hv]
      rcases hex with ⟨u, hu, husome⟩
      rcases List.mem_cons.mp hu with rfl | hmem
      · rw [hv] at husome; simp at husome
      · exact ih (i + 1) (fun u hu loc hl => hb u (List.mem_cons_of_mem v hu) loc hl)
          ⟨u, hmem, husome⟩
    | some vloc =>
      have hzS : zeroTime < userEarliestStart day vloc :=
        hb v (List.mem_cons_self v rest) vloc hv
      have hzE : ¬ userLatestEnd day vloc < zeroTime := by
        simp only [userEarliestStart, userLatestEnd] at hzS ⊢
        omega
      have hp : stepBounds (i + 1) zeroTime zeroTime
          (userEarliestStart day vloc) (userLatestEnd day vloc) =
          (userEarliestStart day vloc, zeroTime) := by
        simp only [stepBounds, Nat.succ_ne_zero, if_false, if_pos hzS, if_neg hzE]
      have hdeg : zeroTime < userEarliestStart day vloc ∨
          userEarliestStart day vloc = zeroTime := Or.inl hzS
      simp only [windowLoop, hv, hp, if_pos hdeg]

/-! Helper lemmas about `arrangeUserFirst`. -/

/-- When some member matches, the list splits at the first match and
`findIdxUser` reports the length of the non-matching prefix. -/
theorem findIdxUser_decomp (userID : String) :
    ∀ users : List User, (∃ u ∈ users, u.id = userID) →
      ∃ pre inv post, users = pre ++ inv :: post ∧ inv.id = userID ∧
        (∀ u ∈ pre, u.id ≠ userID) ∧ findIdxUser userID users = some pre.length := by
  intro users
  induction users with
  | nil => intro h; simp at h
  | cons v rest ih =>
    intro h
    by_cases hv : v.id = userID
    · exact ⟨[], v, rest, by simp, hv, by simp, by simp [findIdxUser, hv]⟩
    · have hex : ∃ u ∈ rest, u.id = userID := by
        rcases h with ⟨u, hu, hid⟩
        rcases List.mem_cons.mp hu with rfl | hmem
        · exact absurd hid hv
        · exact ⟨u, hmem, hid⟩
      rcases ih hex with ⟨pre, inv, post, hsplit, hid, hpre, hf⟩
      refine ⟨v :: pre, inv, post, by simp [hsplit], hid, ?_, ?_⟩
      · intro u hu
        rcases List.mem_cons.mp hu with rfl | hmem
        · exact hv
        · exact hpre u hmem
      · simp [findIdxUser, hv, hf]

/-- With no matching member, the search loop leaves the index variable
at its zero value. -/
theorem findIdxUser_eq_none (userID : String) :
    ∀ users : List User, (∀ u ∈ users, u.id ≠ userID) →
      findIdxUser userID users = none := by
  intro users
  induction users with
  | nil => intro _; rfl
  | cons v rest ih =>
    intro h
    have hv : v.id ≠ userID := h v (List.mem_cons_self v rest)
    simp [findIdxUser, hv, ih (fun u hu => h u (List.mem_cons_of_mem v hu))]

/-- A found index is in bounds. -/
theorem findIdxUser_lt_length (userID : String) :
    ∀ (users : List User) (i : Nat), findIdxUser userID users = some i →
      i < users.length := by
  intro users
  induction users with
  | nil => intro i h; simp [findIdxUser] at h
  | cons v rest ih =>
    intro i h
    by_cases hv : v.id = userID
    · simp [findIdxUser, hv] at h
      simp
      omega
    · simp only [findIdxUser, hv, if_false, reduceIte] at h
      cases hf : findIdxUser userID rest with
      | none => rw [hf] at h; simp at h
      | some j =>
        rw [hf] at h
        simp at h
        have := ih j hf
        simp
        omega

/-- Computing `arrangeUserFirst` at a found index: the element at the
index moves to the front, the rest keeps its order. -/
theorem arrangeUserFirst_decomp (userID : String) (pre post : List User) (inv : User)
    (hf : findIdxUser userID (pre ++ inv :: post) = some pre.length) :
    arrangeUserFirst userID (pre ++ inv :: post) = some (inv :: (pre ++ post)) := by
  have hidx : indexOfUser userID (pre ++ inv :: post) = pre.length := by
    simp [indexOfUser, hf]
  have hget : (pre ++ inv :: post).get? pre.length = some inv := by
    rw [List.get?_append_right (le_refl pre.length)]
    simp
  have htake : (pre ++ inv :: post).take pre.length = pre := List.take_left pre (inv :: post)
  have hdroplen : (pre ++ inv :: post).drop pre.length = inv :: post :=
    List.drop_left pre (inv :: post)
  have hdrop : (pre ++ inv :: post).drop (pre.length + 1) = post := by
    have h2 := List.drop_drop 1 pre.length (pre ++ inv :: post)
    rw [hdroplen] at h2
    simpa [Nat.add_comm] using h2.symm
  have hbody : arrangeUserFirst userID (pre ++ inv :: post) =
      match (pre ++ inv :: post).get? pre.length with
      | none => none
      | some u => some (u :: ((pre ++ inv :: post).take pre.length ++
          (pre ++ inv :: post).drop (pre.length + 1))) := by
    unfold arrangeUserFirst
    rw [hidx]
  rw [hbody, hget]
  simp only [htake, hdrop]

/-- `arrangeUserFirst` preserves length whenever it returns. -/
theorem arrangeUserFirst_some_length (userID : String) (users l : List User)
    (h : arrangeUserFirst userID users = some l) : l.length = users.length := by
  simp only [arrangeUserFirst] at h
  cases hget : users.get? (indexOfUser userID users) with
  | none => rw [hget] at h; simp at h
  | some u =>
    rw [hget] at h
    simp only [Option.some.injEq] at h
    have hlt : indexOfUser userID users < users.length := by
      rcases List.get?_eq_some.mp hget with ⟨hl, _⟩
      exact hl
    subst h
    simp [List.length_take, List.length_drop]
    omega

/-! Helper lemmas about `usersByTimezone`.  The Go map is modelled as an
association list in first-insertion order; `groupedBy` is the plain fold
of `insertGrouped` under a key function, and `distinctKeys` the keys in
first-appearance order. -/

/-- The fold of `insertGrouped` under a key function `f`. -/
def groupedBy (f : User → String) (users : List User) : List (String × List User) :=
  users.foldl (fun m u => insertGrouped m (f u) u) []

/-- The distinct values of `f` over `users`, in first-appearance order. -/
def distinctKeys (f : User → String) (users : List User) : List String :=
  users.foldl (fun ks u => if f u ∈ ks then ks else ks ++ [f u]) []

/-- The key actually used by `usersByTimezone`: the `String()` of the
member's (possibly nil) resolved location. -/
def tzKey (db : List Location) (u : User) : String :=
  locationString (location db u)

/-- `location` never resolves to a zone named "": the special names ""
and "UTC" resolve to `utcLoc` and a database hit is named by the looked
up (hence non-empty) string. -/
theorem tzKey_ne_empty (db : List Location) (u : User) : tzKey db u ≠ "" := by
  unfold tzKey locationString location loadLocation
  by_cases hsp : chosenTz u = "" ∨ chosenTz u = "UTC"
  · simp [hsp, utcLoc]
  · simp only [hsp, if_false, reduceIte]
    cases hf : db.find? (fun l => l.name == chosenTz u) with
    | none => simp
    | some l =>
      have hl := List.find?_some hf
      have hname : l.name = chosenTz u := by simpa using hl
      simp only []
      rw [hname]
      intro hcon
      exact hsp (Or.inl hcon)

/-- `usersByTimezone` is the plain `insertGrouped` fold under `tzKey`:
the `locStr == ""` guard in the source never fires. -/
theorem usersByTimezone_eq_groupedBy (db : List Location) (users : List User) :
    usersByTimezone db users = groupedBy (tzKey db) users := by
  unfold usersByTimezone groupedBy
  have h : ∀ (acc : List (String × List User)),
      users.foldl
        (fun m u =>
          let locStr := locationString (location db u)
          if locStr = "" then m else insertGrouped m locStr u) acc =
      users.foldl (fun m u => insertGrouped m (tzKey db u) u) acc := by
    induction users with
    | nil => intro acc; rfl
    | cons u rest ih =>
      intro acc
      simp only [List.foldl_cons]
      have hne : locationString (location db u) ≠ "" := tzKey_ne_empty db u
      rw [if_neg hne]
      exact ih _
  exact h []

/-- Inserting under a key absent from the association list appends a new
singleton group. -/
theorem insertGrouped_of_notMem (key : String) (u : User) :
    ∀ m : List (String × List User), (∀ p ∈ m, p.1 ≠ key) →
      insertGrouped m key u = m ++ [(key, [u])] := by
  intro m
  induction m with
  | nil => intro _; rfl
  | cons p rest ih =>
    intro h
    rcases p with ⟨k, g⟩
    have hk : k ≠ key := h (k, g) (List.mem_cons_self _ _)
    simp only [insertGrouped, if_neg hk, List.cons_append, List.cons.injEq, true_and]
    exact ih (fun q hq => h q (List.mem_cons_of_mem _ hq))

/-- Inserting under a key present in a nodup-keyed map built by mapping
a group function over the keys appends the member to that key's group. -/
theorem insertGrouped_map_of_mem (key : String) (u : User) (F : String → List User) :
    ∀ ks : List String, key ∈ ks → ks.Nodup →
      insertGrouped (ks.map (fun k => (k, F k))) key u =
        ks.map (fun k => (k, if k = key then F k ++ [u] else F k)) := by
  intro ks
  induction ks with
  | nil => intro h _; simp at h
  | cons k kt ih =>
    intro hmem hnd
    by_cases hk : k = key
    · subst hk
      have hnot : k ∉ kt := (List.nodup_cons.mp hnd).1
      simp only [List.map_cons, insertGrouped, if_pos rfl, List.cons.injEq, true_and]
      have : ∀ x ∈ kt, (x, F x) = (x, if x = k then F x ++ [u] else F x) := by
        intro x hx
        have hxk : x ≠ k := fun hcon => hnot (hcon ▸ hx)
        simp [hxk]
      rw [List.map_congr_left (fun x hx => (this x hx))]
      simp
    · have hmem2 : key ∈ kt := by
        rcases List.mem_cons.mp hmem with rfl | h2
        · exact absurd rfl hk
        · exact h2
      have hnd2 : kt.Nodup := (List.nodup_cons.mp hnd).2
      simp only [List.map_cons, insertGrouped, if_neg hk, List.cons.injEq, true_and]
      exact ih hmem2 hnd2

/-- Membership in the key fold, with an arbitrary accumulator. -/
theorem distinctKeys_mem_aux (f : User → String) :
    ∀ (users : List User) (acc : List String) (s : String),
      (s ∈ users.foldl (fun ks u => if f u ∈ ks then ks else ks ++ [f u]) acc) ↔
        (s ∈ acc ∨ ∃ u ∈ users, f u = s) := by
  intro users
  induction users with
  | nil => intro acc s; simp
  | cons u rest ih =>
    intro acc s
    simp only [List.foldl_cons]
    rw [ih]
    by_cases hm : f u ∈ acc
    · simp only [if_pos hm]
      constructor
      · rintro (h | ⟨v, hv, rfl⟩)
        · exact Or.inl h
        · exact Or.inr ⟨v, List.mem_cons_of_mem u hv, rfl⟩
      · rintro (h | ⟨v, hv, rfl⟩)
        · exact Or.inl h
        · rcases List.mem_cons.mp hv with rfl | hv2
          · exact Or.inl hm
          · exact Or.inr ⟨v, hv2, rfl⟩
    · simp only [if_neg hm, List.mem_append, List.mem_singleton]
      constructor
      · rintro ((h | h) | ⟨v, hv, rfl⟩)
        · exact Or.inl h
        · exact Or.inr ⟨u, List.mem_cons_self u rest, h.symm⟩
        · exact Or.inr ⟨v, List.mem_cons_of_mem u hv, rfl⟩
      · rintro (h | ⟨v, hv, rfl⟩)
        · exact Or.inl (Or.inl h)
        · rcases List.mem_cons.mp hv with rfl | hv2
          · exact Or.inl (Or.inr rfl)
          · exact Or.inr ⟨v, hv2, rfl⟩

/-- The distinct keys are exactly the values of `f` over the list. -/
theorem distinctKeys_mem (f : User → String) (users : List User) (s : String) :
    s ∈ distinctKeys f users ↔ ∃ u ∈ users, f u = s := by
  simpa using distinctKeys_mem_aux f users [] s

/-- The key fold never repeats a key. -/
theorem distinctKeys_nodup_aux (f : User → String) :
    ∀ (users : List User) (acc : List String), acc.Nodup →
      (users.foldl (fun ks u => if f u ∈ ks then ks else ks ++ [f u]) acc).Nodup := by
  intro users
  induction users with
  | nil => intro acc h; exact h
  | cons u rest ih =>
    intro acc h
    simp only [List.foldl_cons]
    by_cases hm : f u ∈ acc
    · simp only [if_pos hm]
      exact ih acc h
    · simp only [if_neg hm]
      refine ih _ (List.Nodup.append h (List.nodup_singleton _) ?_)
      intro x hx hx2
      rw [List.mem_singleton] at hx2
      exact hm (hx2 ▸ hx)

/-- The distinct keys form a nodup list. -/
theorem distinctKeys_nodup (f : User → String) (users : List User) :
    (distinctKeys f users).Nodup :=
  distinctKeys_nodup_aux f users [] List.nodup_nil

/-- The `insertGrouped` fold computes, for each distinct key in
first-appearance order, the sublist of members carrying that key. -/
theorem groupedBy_eq (f : User → String) (users : List User) :
    groupedBy f users = (distinctKeys f users).map
      (fun k => (k, users.filter (fun x => f x == k))) := by
  induction users using List.reverseRecOn with
  | nil => rfl
  | append_singleton users u ih =>
    have hgb : groupedBy f (users ++ [u]) = insertGrouped (groupedBy f users) (f u) u := by
      simp [groupedBy, List.foldl_append]
    have hdk : distinctKeys f (users ++ [u]) =
        (if f u ∈ distinctKeys f users then distinctKeys f users
          else distinctKeys f users ++ [f u]) := by
      simp [distinctKeys, List.foldl_append]
    by_cases hm : f u ∈ distinctKeys f users
    · rw [hgb, ih, hdk, if_pos hm,
        insertGrouped_map_of_mem (f u) u _ _ hm (distinctKeys_nodup f users)]
      refine List.map_congr_left ?_
      intro k hk
      by_cases hku : k = f u
      · subst hku
        simp [List.filter_append]
      · simp [List.filter_append, hku, Ne.symm hku]
    · rw [hgb, ih, hdk, if_neg hm]
      have hnk : ∀ p ∈ (distinctKeys f users).map
          (fun k => (k, users.filter (fun x => f x == k))), p.1 ≠ f u := by
        intro p hp
        rcases List.mem_map.mp hp with ⟨k, hk, rfl⟩
        intro hcon
        exact hm (hcon ▸ hk)
      rw [insertGrouped_of_notMem (f u) u _ hnk]
      rw [List.map_append]
      congr 1
      · refine List.map_congr_left ?_
        intro k hk
        have hku : k ≠ f u := fun hcon => hm (hcon ▸ hk)
        simp [List.filter_append, Ne.symm hku]
      · have hfe : users.filter (fun x => f x == f u) = [] := by
          rw [List.filter_eq_nil]
          intro a ha
          simp only [beq_iff_eq]
          intro hcon
          exact hm ((distinctKeys_mem f users (f u)).mpr ⟨a, ha, hcon⟩)
        simp [List.filter_append, hfe]

/-- The `compactDisplay` fold returns a message when every group's line
renders (no group head with a nil location). -/
theorem compactFold_some (db : List Location) (s e : Int) :
    ∀ (gs : List (String × List User)) (m : String),
      (∀ g ∈ gs, ∃ line, compactLine db s e g.2 = some line) →
      ∃ msg, gs.foldl
        (fun msg g =>
          match msg, compactLine db s e g.2 with
          | some m, some line => some (m ++ line)
          | _, _ => none) (some m) = some msg := by
  intro gs
  induction gs with
  | nil => intro m _; exact ⟨m, rfl⟩
  | cons g rest ih =>
    intro m h
    rcases h g (List.mem_cons_self g rest) with ⟨line, hline⟩
    simp only [List.foldl_cons, hline]
    exact ih (m ++ line) (fun q hq => h q (List.mem_cons_of_mem g hq))

/-- When every member's timezone resolves, `compactDisplay` renders
without panicking. -/
theorem compactDisplay_resolved_some (db : List Location) (s e : Int) (users : List User)
    (hres : ∀ u ∈ users, (location db u).isSome) :
    ∃ msg, compactDisplay db s e users = some msg := by
  unfold compactDisplay
  refine compactFold_some db s e (usersByTimezone db users) "" ?_
  intro g hg
  rw [usersByTimezone_eq_groupedBy, groupedBy_eq] at hg
  rcases List.mem_map.mp hg with ⟨k, hk, rfl⟩
  rcases (distinctKeys_mem _ users k).mp hk with ⟨v, hv, hfv⟩
  have hvf : v ∈ users.filter (fun x => tzKey db x == k) := by
    simp [List.mem_filter, hv, hfv]
  cases hF : users.filter (fun x => tzKey db x == k) with
  | nil => rw [hF] at hvf; simp at hvf
  | cons u0 tail =>
    have hu0 : u0 ∈ users := by
      have hmem : u0 ∈ users.filter (fun x => tzKey db x == k) := by
        rw [hF]; exact List.mem_cons_self _ _
      exact (List.mem_filter.mp hmem).1
    have hsome := hres u0 hu0
    cases hloc : location db u0 with
    | none => rw [hloc] at hsome; simp at hsome
    | some loc =>
      have hline : ∃ line, compactLine db s e (u0 :: tail) = some line := by
        simp only [compactLine, hloc]
        exact ⟨_, rfl⟩
      simpa [hF] using hline

/-! The claims. -/

/-- Claim C1, counterexample.  The claim asserts that the window's start
and end, projected into a contributing member's zone, fall within that
member's [07:00,22:00) interval for the member's OWN current local date.
At `now = 1410` (23:30 UTC of day 0, server in UTC) a single Asia/Tokyo
member has current local date 1, whose 07:00 instant is
`userEarliestStart ((1410 + tokyoLoc.offset).fdiv 1440) tokyoLoc = 1320`;
yet `window` reports a usable window whose end `780` precedes it, because
the code builds both bounds from the server's calendar date, not the
member's.  So both returned instants lie wholly outside the member's
own-local-date interval while `hasOverlap = true`. -/
theorem window_member_own_date_counterexample :
    (window db0 1410 0 [tokyoUser]).2.2 = true ∧
    (window db0 1410 0 [tokyoUser]).2.1 <
      userEarliestStart ((1410 + tokyoLoc.offset).fdiv 1440) tokyoLoc := by
  decide

/-- Claim C1 (amended): for every member list, whenever `window` reports
`hasOverlap = true`, the returned start and end, projected into any
contributing (timezone-resolved) member's zone, fall within that
member's [07:00,22:00] wall-clock interval of the SERVER's current local
date (the date of `time.Now()` in the server zone), with start strictly
before end; the member's own current local date may differ. -/
theorem window_within_server_date_bounds (db : List Location) (now serverOff : Int)
    (users : List User)
    (hok : (window db now serverOff users).2.2 = true) :
    ∀ u ∈ users, ∀ loc, location db u = some loc →
      serverDay now serverOff * 1440 + 7 * 60 ≤
          (window db now serverOff users).1 + loc.offset ∧
        (window db now serverOff users).2.1 + loc.offset ≤
          serverDay now serverOff * 1440 + 22 * 60 ∧
        (window db now serverOff users).1 < (window db now serverOff users).2.1 := by
  intro u hu loc hloc
  have hb := windowLoop_bounds db (serverDay now serverOff) users 0 zeroTime zeroTime
    hok u hu loc hloc
  have hs := windowLoop_strict db (serverDay now serverOff) users 0 zeroTime zeroTime
    hok ⟨u, hu, by simp [hloc]⟩
  unfold window at hb hs ⊢
  unfold userEarliestStart userLatestEnd at hb
  exact ⟨by omega, by omega, hs⟩

/-- Claim C1 (amended), witness: one Asia/Tokyo member at `now = 600`,
server in UTC: the window is `(-120, 780, true)` and projecting into the
member's zone gives 07:00-22:00 of server day 0. -/
theorem window_within_server_date_bounds_witness :
    (window db0 600 0 [tokyoUser]).2.2 = true ∧
    (serverDay 600 0 * 1440 + 7 * 60 ≤ (window db0 600 0 [tokyoUser]).1 + tokyoLoc.offset ∧
      (window db0 600 0 [tokyoUser]).2.1 + tokyoLoc.offset ≤
        serverDay 600 0 * 1440 + 22 * 60 ∧
      (window db0 600 0 [tokyoUser]).1 < (window db0 600 0 [tokyoUser]).2.1) :=
  ⟨by decide,
    window_within_server_date_bounds db0 600 0 [tokyoUser] (by decide)
      tokyoUser (by simp) tokyoLoc (by decide)⟩

/-- Claim C2 (code bug): the spec requires the running bounds to be
initialized from the first timezone-RESOLVED member, and flags the
`i == 0` pattern as a latent bug not to replicate; the code nevertheless
initializes only at range index 0.  Consequently, when the first member's
timezone does not resolve, the zero-value sentinel `end` never rises (a
zero `time.Time` precedes every contemporary 22:00 bound), so the first
resolved member trips the degenerate check and the result is
`hasOverlap = false` instead of the claimed correct intersection of the
resolved members' bounds.  The side condition only excludes server dates
at the very start of year 1, where the sentinel is a genuine instant. -/
theorem window_firstUnknown_no_window (db : List Location) (now serverOff : Int)
    (u1 : User) (rest : List User)
    (h1 : location db u1 = none)
    (hex : ∃ u ∈ rest, (location db u).isSome)
    (hday : ∀ u ∈ rest, ∀ loc, location db u = some loc →
      zeroTime < userEarliestStart (serverDay now serverOff) loc) :
    (window db now serverOff (u1 :: rest)).2.2 = false := by
  unfold window
  simp only [windowLoop, h1]
  exact windowLoop_sentinelSeeds db (serverDay now serverOff) rest 0 hday hex

/-- Claim C2 (code bug), witness: an unresolvable member followed by an
Asia/Tokyo member yields `hasOverlap = false`, though the claim (and the
spec) promise the Tokyo member's own 07:00-22:00 window. -/
theorem window_firstUnknown_no_window_witness :
    (window db0 600 0 [fakeUser, tokyoUser]).2.2 = false :=
  window_firstUnknown_no_window db0 600 0 fakeUser [tokyoUser] (by decide)
    ⟨tokyoUser, by simp, by decide⟩
    (by
      intro u hu loc hloc
      rw [List.mem_singleton] at hu
      subst hu
      have hcalc : location db0 tokyoUser = some tokyoLoc := by decide
      rw [hcalc] at hloc
      have hl : tokyoLoc = loc := by injection hloc
      subst hl
      decide)

/-- Claim C3 (code bug): the claim (and spec) say `hasOverlap` is false
when no member has a resolvable timezone, the empty list included.  The
code does the opposite: with no resolved member the loop body never runs
its checks, falls off the loop, and sets `ok = true`, returning the
zero-value sentinels as the "window". -/
theorem window_allUnknown_overlap_true (db : List Location) (now serverOff : Int)
    (users : List User) (h : ∀ u ∈ users, location db u = none) :
    window db now serverOff users = (zeroTime, zeroTime, true) :=
  windowLoop_allUnknown db (serverDay now serverOff) users 0 zeroTime zeroTime h

/-- Claim C3 (code bug), witness: both the empty member list and a list
with a single unresolvable member report `hasOverlap = true`. -/
theorem window_allUnknown_overlap_true_witness :
    window db0 600 0 [] = (zeroTime, zeroTime, true) ∧
    window db0 600 0 [fakeUser] = (zeroTime, zeroTime, true) :=
  ⟨window_allUnknown_overlap_true db0 600 0 [] (by simp),
    window_allUnknown_overlap_true db0 600 0 [fakeUser] (by
      intro u hu
      rw [List.mem_singleton] at hu
      subst hu
      decide)⟩

/-- Claim C4 (confirmed): whenever the running intersection becomes
degenerate (start ≥ end, equality included) right after some resolved
member's update — the states at which plugin.go lines 173-175 perform
the check — `window` reports `hasOverlap = false`. -/
theorem window_degenerate_no_overlap (db : List Location) (now serverOff : Int)
    (users : List User)
    (h : reachesDegenerate db (serverDay now serverOff) users 0 zeroTime zeroTime = true) :
    (window db now serverOff users).2.2 = false :=
  windowLoop_degenerate db (serverDay now serverOff) users 0 zeroTime zeroTime h

/-- Claim C4 (confirmed), witness: a UTC member and a UTC+15 member make
the running intersection collapse to the single instant 420 = 420, and
the result is `hasOverlap = false`. -/
theorem window_degenerate_no_overlap_witness :
    reachesDegenerate db0 (serverDay 600 0) [emptyTzUser, farUser] 0 zeroTime zeroTime = true ∧
    (window db0 600 0 [emptyTzUser, farUser]).2.2 = false :=
  ⟨by decide, window_degenerate_no_overlap db0 600 0 [emptyTzUser, farUser] (by decide)⟩

/-- Claim C5 (confirmed): when the invoker occurs in the member list,
`arrangeUserFirst` returns the first matching member at index 0 followed
by the remaining members in their original relative order — the original
list with that occurrence removed (same multiset, stable reorder). -/
theorem arrangeUserFirst_stable_reorder (userID : String) (users : List User)
    (h : ∃ u ∈ users, u.id = userID) :
    ∃ pre inv post, users = pre ++ inv :: post ∧ inv.id = userID ∧
      (∀ u ∈ pre, u.id ≠ userID) ∧
      arrangeUserFirst userID users = some (inv :: (pre ++ post)) := by
  rcases findIdxUser_decomp userID users h with ⟨pre, inv, post, hsplit, hid, hpre, hf⟩
  refine ⟨pre, inv, post, hsplit, hid, hpre, ?_⟩
  rw [hsplit]
  exact arrangeUserFirst_decomp userID pre post inv (hsplit ▸ hf)

/-- Claim C5 (confirmed), witness: the invoker in the middle of a
three-member list moves to the front, prefix and suffix keep order. -/
theorem arrangeUserFirst_stable_reorder_witness :
    ∃ pre inv post, [fakeUser, tokyoUser, emptyTzUser] = pre ++ inv :: post ∧
      inv.id = "t1" ∧ (∀ u ∈ pre, u.id ≠ "t1") ∧
      arrangeUserFirst "t1" [fakeUser, tokyoUser, emptyTzUser] = some (inv :: (pre ++ post)) :=
  arrangeUserFirst_stable_reorder "t1" [fakeUser, tokyoUser, emptyTzUser]
    ⟨tokyoUser, by simp, by decide⟩

/-- Claim C10 (confirmed): `arrangeUserFirst` is total only on non-empty
lists.  On the empty list `users[indexOfUser]` is out of bounds (`none`
in the embedding); on any non-empty list every access is in bounds and a
list of the same length is returned; when the invoker is absent the
index defaults to 0 and the list comes back unchanged. -/
theorem arrangeUserFirst_totality (userID : String) (users : List User) :
    arrangeUserFirst userID [] = none ∧
    (users ≠ [] → ∃ l, arrangeUserFirst userID users = some l ∧
      l.length = users.length) ∧
    (users ≠ [] → (∀ u ∈ users, u.id ≠ userID) →
      arrangeUserFirst userID users = some users) := by
  refine ⟨rfl, ?_, ?_⟩
  · intro hne
    have hlt : indexOfUser userID users < users.length := by
      unfold indexOfUser
      cases hf : findIdxUser userID users with
      | none =>
        cases users with
        | nil => exact absurd rfl hne
        | cons v rest => simp
      | some i => exact findIdxUser_lt_length userID users i hf
    obtain ⟨u, hget⟩ : ∃ u, users.get? (indexOfUser userID users) = some u := by
      cases hg : users.get? (indexOfUser userID users) with
      | none => rw [List.get?_eq_none] at hg; omega
      | some u => exact ⟨u, rfl⟩
    have harr : arrangeUserFirst userID users =
        some (u :: (users.take (indexOfUser userID users) ++
          users.drop (indexOfUser userID users + 1))) := by
      simp only [arrangeUserFirst]
      rw [hget]
    exact ⟨_, harr, arrangeUserFirst_some_length userID users _ harr⟩
  · intro hne habs
    have hf := findIdxUser_eq_none userID users habs
    cases users with
    | nil => exact absurd rfl hne
    | cons v rest => simp [arrangeUserFirst, indexOfUser, hf]

/-- Claim C10 (confirmed), witness: the empty list is rejected, a
singleton list without the invoker keeps its length and order. -/
theorem arrangeUserFirst_totality_witness :
    arrangeUserFirst "zz" [] = none ∧
    (∃ l, arrangeUserFirst "zz" [tokyoUser] = some l ∧
      l.length = [tokyoUser].length) ∧
    arrangeUserFirst "zz" [tokyoUser] = some [tokyoUser] :=
  ⟨(arrangeUserFirst_totality "zz" [tokyoUser]).1,
    (arrangeUserFirst_totality "zz" [tokyoUser]).2.1 (by simp),
    (arrangeUserFirst_totality "zz" [tokyoUser]).2.2 (by simp)
      (by intro u hu; rw [List.mem_singleton] at hu; subst hu; decide)⟩

/-- Claim C6, counterexample.  The claim says unknown-timezone members
contribute no line at all to the compact output.  In the code,
`location(user).String()` on a nil location reports "UTC", so an
unresolvable member is grouped under the "UTC" key together with
genuinely UTC-resolved members — here it inflates that group to two
members (and so an "and 1 other" suffix counting it) — and a group whose
first member is unresolvable makes `compactDisplay` panic
(`start.In(nil)`), modelled as `none`, rather than emit no line. -/
theorem compact_unknown_member_counterexample :
    usersByTimezone db0 [emptyTzUser, fakeUser] = [("UTC", [emptyTzUser, fakeUser])] ∧
    location db0 fakeUser = none ∧
    compactDisplay db0 0 60 [fakeUser] = none := by
  decide

/-- Claim C6 (amended): members whose timezone does not resolve are NOT
dropped from compact grouping — they are keyed under "UTC" (and can make
rendering panic).  For member lists in which every timezone resolves,
the compact rendering renders without panicking and emits exactly one
line per distinct zone name, in first-appearance order without repeats;
each group holds exactly the members carrying that zone name (so each
line's "and N-1 other(s)" suffix counts that zone's members), and each
group is non-empty. -/
theorem compactDisplay_grouping (db : List Location) (s e : Int) (users : List User)
    (hres : ∀ u ∈ users, (location db u).isSome) :
    (∃ msg, compactDisplay db s e users = some msg) ∧
    (usersByTimezone db users).map Prod.fst = distinctKeys (tzKey db) users ∧
    (distinctKeys (tzKey db) users).Nodup ∧
    (∀ k, k ∈ distinctKeys (tzKey db) users ↔ ∃ u ∈ users, tzKey db u = k) ∧
    (∀ k g, (k, g) ∈ usersByTimezone db users →
      g = users.filter (fun x => tzKey db x == k) ∧ g ≠ []) := by
  refine ⟨compactDisplay_resolved_some db s e users hres, ?_,
    distinctKeys_nodup _ _, fun k => distinctKeys_mem _ _ _, ?_⟩
  · rw [usersByTimezone_eq_groupedBy, groupedBy_eq, List.map_map]
    exact List.map_id'' (fun x => rfl) _
  · intro k g hkg
    rw [usersByTimezone_eq_groupedBy, groupedBy_eq] at hkg
    rcases List.mem_map.mp hkg with ⟨k0, hk0, heq⟩
    have h1 : k0 = k := congrArg Prod.fst heq
    subst h1
    have h2 : users.filter (fun x => tzKey db x == k0) = g := congrArg Prod.snd heq
    subst h2
    refine ⟨rfl, ?_⟩
    rcases (distinctKeys_mem (tzKey db) users k0).mp hk0 with ⟨v, hv, hfv⟩
    have hvf : v ∈ users.filter (fun x => tzKey db x == k0) := by
      simp [List.mem_filter, hv, hfv]
    exact List.ne_nil_of_mem hvf

/-- Claim C6 (amended), witness: a singleton all-resolved list renders
and groups as stated. -/
theorem compactDisplay_grouping_witness :
    (∃ msg, compactDisplay db0 0 60 [emptyTzUser] = some msg) ∧
    (usersByTimezone db0 [emptyTzUser]).map Prod.fst = distinctKeys (tzKey db0) [emptyTzUser] ∧
    (distinctKeys (tzKey db0) [emptyTzUser]).Nodup ∧
    (∀ k, k ∈ distinctKeys (tzKey db0) [emptyTzUser] ↔
      ∃ u ∈ [emptyTzUser], tzKey db0 u = k) ∧
    (∀ k g, (k, g) ∈ usersByTimezone db0 [emptyTzUser] →
      g = [emptyTzUser].filter (fun x => tzKey db0 x == k) ∧ g ≠ []) :=
  compactDisplay_grouping db0 0 60 [emptyTzUser]
    (by intro u hu; rw [List.mem_singleton] at hu; subst hu; decide)

/-- Claim C9, counterexample.  The claim says the resolver returns
"unknown" whenever the chosen zone name is empty.  In Go,
`time.LoadLocation("")` returns UTC with no error, so a member whose
chosen name is empty resolves to UTC, not to unknown — even against an
empty timezone database. -/
theorem location_empty_name_counterexample :
    chosenTz emptyTzUser = "" ∧ location [] emptyTzUser = some utcLoc := by
  decide

/-- Claim C9 (amended): the resolver picks the automatic zone name when
the auto-flag parses true and the manual name otherwise (including a
missing or unparseable flag), never raises an error, and returns unknown
exactly when the chosen name is non-empty, not "UTC", and absent from
the timezone database; an empty (or "UTC") chosen name resolves to UTC. -/
theorem location_resolution_contract (db : List Location) (u : User) :
    (parseBool u.useAutomaticTimezone = some true →
      chosenTz u = u.automaticTimezone) ∧
    (parseBool u.useAutomaticTimezone = some false ∨
        parseBool u.useAutomaticTimezone = none →
      chosenTz u = u.manualTimezone) ∧
    (location db u = none ↔
      (chosenTz u ≠ "" ∧ chosenTz u ≠ "UTC" ∧
        db.find? (fun l => l.name == chosenTz u) = none)) ∧
    ((chosenTz u = "" ∨ chosenTz u = "UTC") → location db u = some utcLoc) := by
  refine ⟨?_, ?_, ?_, ?_⟩
  · intro h; simp [chosenTz, h]
  · rintro (h | h) <;> simp [chosenTz, h]
  · unfold location loadLocation
    by_cases hsp : chosenTz u = "" ∨ chosenTz u = "UTC"
    · rw [if_pos hsp]
      constructor
      · intro h; simp at h
      · rintro ⟨h1, h2, _⟩
        rcases hsp with h | h
        · exact absurd h h1
        · exact absurd h h2
    · rw [if_neg hsp]
      push_neg at hsp
      constructor
      · intro h; exact ⟨hsp.1, hsp.2, h⟩
      · rintro ⟨_, _, h⟩; exact h
  · intro hsp
    unfold location loadLocation
    rw [if_pos hsp]

/-- Claim C9 (amended), witness: a non-empty unrecognized manual name
resolves to unknown; the flag semantics at a parseable false flag. -/
theorem location_resolution_contract_witness :
    location [] fakeUser = none ∧ chosenTz farUser = farUser.manualTimezone :=
  ⟨(location_resolution_contract [] fakeUser).2.2.1.mpr ⟨by decide, by decide, rfl⟩,
    (location_resolution_contract [] farUser).2.1 (Or.inl (by decide))⟩

/-- Claim C7 (confirmed): once the command reaches its rendering stage
(members fetched under the cap, a usable window, the invoker moved to
the front), the mode is selected by comparing the member count with the
threshold `maxDisplayUserBullets = 50`: at most 50 members render
through `verboseDisplay`, more than 50 through `compactDisplay`. -/
theorem executeCommand_display_threshold (db : List Location) (now serverOff : Int)
    (invokerID : String) (batches : List (List User)) (limit : Nat)
    (users arranged : List User) (s e : Int)
    (h1 : allUsers limit batches [] = (users, false))
    (h2 : window db now serverOff users = (s, e, true))
    (h3 : arrangeUserFirst invokerID users = some arranged) :
    (users.length ≤ 50 →
      executeCommand db now serverOff invokerID "/whentochat" batches limit =
        CommandResult.posted ("It looks like the best times to chat are:\n" ++
          verboseDisplay db s e arranged)) ∧
    (50 < users.length → ∀ msg, compactDisplay db s e arranged = some msg →
      executeCommand db now serverOff invokerID "/whentochat" batches limit =
        CommandResult.posted ("It looks like the best times to chat are:\n" ++ msg)) := by
  have hsplit : splitFields "/whentochat" = ["/whentochat"] := by decide
  have hlen : arranged.length = users.length :=
    arrangeUserFirst_some_length invokerID users arranged h3
  constructor
  · intro hle
    simp only [executeCommand, hsplit, eq_self_iff_true, if_true, h1, h2, h3]
    rw [if_pos (show arranged.length ≤ maxDisplayUserBullets by
      unfold maxDisplayUserBullets; omega)]
  · intro hgt msg hmsg
    simp only [executeCommand, hsplit, eq_self_iff_true, if_true, h1, h2, h3]
    rw [if_neg (show ¬ arranged.length ≤ maxDisplayUserBullets by
      unfold maxDisplayUserBullets; omega), hmsg]

/-- Claim C7 (confirmed), witness: one member, so the verbose branch. -/
theorem executeCommand_display_threshold_witness :
    executeCommand db0 600 0 "t1" "/whentochat" [[tokyoUser]] 10 =
      CommandResult.posted ("It looks like the best times to chat are:\n" ++
        verboseDisplay db0 (-120) 780 [tokyoUser]) :=
  (executeCommand_display_threshold db0 600 0 "t1" [[tokyoUser]] 10
    [tokyoUser] [tokyoUser] (-120) 780 (by decide) (by decide) (by decide)).1
    (by decide)

/-- Claim C8 (confirmed): when a processed page pushes the running
non-bot member count past the configured limit, `allUsers` returns at
once with the over-cap error — the same result whatever pages remain
unfetched — and `ExecuteCommand` then posts the fixed
"Too many channel members." message for every evaluation time and server
zone, i.e. without computing any window on the partial list. -/
theorem allUsers_overCap_short_circuit (db : List Location) (invokerID : String)
    (limit : Nat) (b : List User) (rest batches : List (List User)) (acc : List User) :
    (limit < (acc ++ b.filter (fun u => !u.isBot)).length →
      allUsers limit (b :: rest) acc = (acc ++ b.filter (fun u => !u.isBot), true)) ∧
    ((allUsers limit batches []).2 = true →
      ∀ now serverOff : Int,
        executeCommand db now serverOff invokerID "/whentochat" batches limit =
          CommandResult.posted "Too many channel members.") := by
  constructor
  · intro h
    simp only [allUsers]
    rw [if_pos h]
  · intro h now serverOff
    have hsplit : splitFields "/whentochat" = ["/whentochat"] := by decide
    rcases hall : allUsers limit batches [] with ⟨l, flag⟩
    rw [hall] at h
    simp only at h
    subst h
    simp only [executeCommand, hsplit, eq_self_iff_true, if_true, hall]

/-- Claim C8 (confirmed), witness: limit 0 with a single one-member page
aborts with the partial list and posts the over-cap message. -/
theorem allUsers_overCap_short_circuit_witness :
    allUsers 0 [[tokyoUser]] [] = ([] ++ [tokyoUser].filter (fun u => !u.isBot), true) ∧
    executeCommand db0 600 0 "t1" "/whentochat" [[tokyoUser]] 0 =
      CommandResult.posted "Too many channel members." :=
  ⟨(allUsers_overCap_short_circuit db0 "t1" 0 [tokyoUser] [] [[tokyoUser]] []).1
      (by decide),
    (allUsers_overCap_short_circuit db0 "t1" 0 [tokyoUser] [] [[tokyoUser]] []).2
      (by decide) 600 0⟩

end WhenToChat
